import Mathlib

/-!
# demumble: scanner and dispatcher of `src/demumble.cc`

A shallow embedding of `demangled_conv` and `demangled`.

* A `char` is a `Byte` (a natural number; the literals are ASCII codes).
* A `std::string` / `std::string_view` is a `List Byte`; the buffer behind
  `strSymbol.data()` is followed by one terminating NUL, so reading one byte
  past the end yields `0`.
* A cursor `cur` is the list of the bytes from `cur` up to `end`.
* The four decoders are external libraries: they are parameters (`Decoders`).
* `size_t` and `int` lengths are natural numbers: the cast `(int)s.size()` and
  the `int` returned by `snprintf` are exact for spans and names below `2^31`
  bytes, and the embedding does not follow them beyond.
* `scan_loop` runs the `while` loop with fuel; `none` stands for a run that
  does not end or leaves the buffer.
* The output `result` is a list of any length: `std::string::max_size()` and
  the memory of the machine are not part of the embedding. A value `some out`
  with `out` longer than a `std::string` can be stands for a run in which
  `result +=` throws before the cursor reaches `end`.
-/

namespace Demumble

/-- One `char`. -/
abbrev Byte := Nat

/-- A NUL-terminated C string, given by the bytes before its terminator. -/
structure CStr where
  bytes : List Byte
  nonul : bytes.all (fun c => c != 0) = true
  deriving DecidableEq

/-- The C string a buffer denotes: its bytes up to the first NUL
(`std::string::c_str()` read by `%s`). -/
def c_str (buf : List Byte) : CStr :=
  ⟨buf.takeWhile (fun c => c != 0), by
    induction buf with
    | nil => rfl
    | cons a t ih =>
      by_cases h : (a != 0) = true
      · simp only [List.takeWhile_cons, h, if_true, List.all_cons, Bool.true_and]
        exact ih
      · simp [List.takeWhile_cons, h]⟩

/-- The libc `strchr(s, c) != NULL` for a string literal `s`: the terminator of
`s` is part of the searched string, so `c = 0` is always found. -/
def strchr (s : List Byte) (c : Byte) : Bool :=
  s.contains c || c == 0

/-- The libc `strcspn(s, reject)`: the length of the initial segment of the C
string at `s` holding no byte of `reject`; the scan stops at a NUL. -/
def strcspn (s reject : List Byte) : Nat :=
  (s.takeWhile (fun c => c != 0 && !reject.contains c)).length

/-- The libc `strstr(hay, needle) != NULL` on C strings without NUL. -/
def strstr : List Byte → List Byte → Bool
  | [], needle => needle.isEmpty
  | c :: hay, needle => needle.isPrefixOf (c :: hay) || strstr hay needle

/-- Line 13. -/
def is_mangle_char_itanium (c : Byte) : Bool :=
  (97 ≤ c && c ≤ 122) || (65 ≤ c && c ≤ 90) ||
    (48 ≤ c && c ≤ 57) || c == 95 || c == 36

/-- Line 17. -/
def is_mangle_char_rust (c : Byte) : Bool :=
  (97 ≤ c && c ≤ 122) || (65 ≤ c && c ≤ 90) ||
    (48 ≤ c && c ≤ 57) || c == 95

/-- Line 22. -/
def is_mangle_char_swift (c : Byte) : Bool :=
  (97 ≤ c && c ≤ 122) || (65 ≤ c && c ≤ 90) ||
    (48 ≤ c && c ≤ 57) || c == 95 || c == 36

/-- Line 27; the string literal is `"?_@$"`. -/
def is_mangle_char_win (c : Byte) : Bool :=
  (97 ≤ c && c ≤ 122) || (65 ≤ c && c ≤ 90) ||
    (48 ≤ c && c ≤ 57) || strchr [63, 95, 64, 36] c

/-- Line 31: `strncpy(prefix, s, 5)` copies at most five bytes and stops at a
NUL, then `strstr(prefix, "_Z")`. -/
def is_plausible_itanium_prefix (s : List Byte) : Bool :=
  strstr (c_str (s.take 5)).bytes [95, 90]

/-- Line 39: `s[0] == '_' && s[1] == 'R'`. -/
def is_plausible_rust_prefix (s : List Byte) : Bool :=
  s.getD 0 0 == 95 && s.getD 1 0 == 82

/-- Line 43. -/
def is_plausible_swift_prefix (s : List Byte) : Bool :=
  (s.getD 0 0 == 36 && s.getD 1 0 == 115) ||
  (s.getD 0 0 == 95 && s.getD 1 0 == 84) ||
  (s.getD 0 0 == 36 && s.getD 1 0 == 83)

/-- The external decoders: `llvm::itaniumDemangle`, `llvm::rustDemangle`
(a `char*`, null on failure), `llvm::microsoftDemangle` (the same, and on
success the number of bytes read, stored through `n_used`),
`swift::Demangle::isSwiftSymbol` and `swift::Demangle::demangleSymbolAsString`
(a `std::string`). -/
structure Decoders where
  itaniumDemangle : List Byte → Option CStr
  rustDemangle : List Byte → Option CStr
  microsoftDemangle : List Byte → Option (CStr × Nat)
  isSwiftSymbol : List Byte → Bool
  demangleSymbolAsString : List Byte → List Byte

/-- The two values of `print_format`: `"%s"` and `"\"%s\" (%.*s)"`. -/
inductive PrintFormat where
  | plain
  | annotated
  deriving DecidableEq, Repr

/-- The text `snprintf(buf, size, fmt, name, prec, data)` writes: `%s` is the C
string `name`; `%.*s` is at most `prec` bytes of the C string at `data`. -/
def snprintf (fmt : PrintFormat) (name : CStr) (prec : Nat) (data : List Byte) :
    List Byte :=
  match fmt with
  | .plain => name.bytes
  | .annotated =>
    [34] ++ name.bytes ++ [34, 32, 40] ++ (c_str data).bytes.take prec ++ [41]

/-- The lambda `append_formatted` of `demangled` (lines 62-73). -/
def append_formatted (origin : List Byte) (fmt : PrintFormat) (name : CStr)
    (prec : Nat) (data : List Byte) : List Byte :=
  let len := (snprintf fmt name prec data).length
  if len ≤ 0 then origin else origin ++ (snprintf fmt name prec data).take len

/-- Lines 55-104. Returns the string and the final value of `*n_used`. -/
def demangled (D : Decoders) (origin : List Byte) (format : PrintFormat)
    (s : List Byte) (n_used : Nat) : List Byte × Nat :=
  match D.itaniumDemangle s with
  | some itanium => (append_formatted origin format itanium s.length s, n_used)
  | none =>
    match D.rustDemangle s with
    | some rust => (append_formatted origin format rust s.length s, n_used)
    | none =>
      match D.microsoftDemangle s with
      | some (ms, n_read) => (append_formatted origin format ms s.length s, n_read)
      | none =>
        if D.isSwiftSymbol s then
          let swift := D.demangleSymbolAsString s
          if swift = s then (origin ++ s, n_used)
          else (append_formatted origin format (c_str swift) s.length s, n_used)
        else (origin ++ s, n_used)

/-- The four classifications of the scanner. -/
inductive Scheme where
  | microsoft
  | itanium
  | rust
  | swift
  deriving DecidableEq, Repr

/-- The `if`/`else if` chain of lines 146-165 at a cursor that is not `end`:
the branch taken, `none` for the final `else`. -/
def scheme_at (cur : List Byte) : Option Scheme :=
  if cur.getD 0 0 == 63 then some .microsoft
  else if is_plausible_itanium_prefix cur then some .itanium
  else if is_plausible_rust_prefix cur then some .rust
  else if is_plausible_swift_prefix cur then some .swift
  else none

/-- The character class used by the `while` loop of each branch. -/
def mangle_char : Scheme → Byte → Bool
  | .microsoft => is_mangle_char_win
  | .itanium => is_mangle_char_itanium
  | .rust => is_mangle_char_rust
  | .swift => is_mangle_char_swift

/-- The loop `while (cur + n_sym != end && p(cur[n_sym])) ++n_sym;`. -/
def mangle_run (p : Byte → Bool) (cur : List Byte) : Nat :=
  (cur.takeWhile p).length

/-- The value of `n_sym` at line 174, when one of the four branches is taken. -/
def n_sym_at (cur : List Byte) : Option Nat :=
  (scheme_at cur).map (fun sch => mangle_run (mangle_char sch) cur)

/-- The outcome of one iteration of the `while` loop of `demangled_conv`. -/
inductive Step where
  /-- The `break` of line 142. -/
  | brk (result : List Byte) (advance : Nat)
  /-- The next iteration starts at `cur` with `result`. -/
  | cont (cur : List Byte) (result : List Byte) (advance : Nat)
  /-- The cursor was moved past `end`. -/
  | fault

/-- The string literal `"_?$"` of line 134. -/
def triggers : List Byte := [95, 63, 36]

/-- The body of the `while` loop (lines 134-177), entered with `cur != end`;
`m` is `print_mode == kPrintMatching`. `advance` is the number of bytes the
cursor moves in this iteration. -/
def scan_step (D : Decoders) (format : PrintFormat) (m : Bool)
    (cur result : List Byte) : Step :=
  let offset_to_possible_symbol := strcspn cur triggers
  let result := if m then result else result ++ cur.take offset_to_possible_symbol
  let cur := cur.drop offset_to_possible_symbol
  if cur = [] then .brk result offset_to_possible_symbol
  else
    match n_sym_at cur with
    | none =>
      .cont (cur.drop 1) (if m then result else result ++ [95])
        (offset_to_possible_symbol + 1)
    | some n_sym =>
      let r := demangled D result format (cur.take n_sym) n_sym
      if r.2 ≤ cur.length then
        .cont (cur.drop r.2) (result ++ r.1) (offset_to_possible_symbol + r.2)
      else .fault

/-- The `while (cur != end)` loop, run for at most `fuel` iterations; `none`
when the fuel runs out or the cursor leaves the buffer. -/
def scan_loop (D : Decoders) (format : PrintFormat) (m : Bool) :
    Nat → List Byte → List Byte → Option (List Byte)
  | 0, _, _ => none
  | fuel + 1, cur, result =>
    if cur = [] then some result
    else
      match scan_step D format m cur result with
      | .brk result _ => some result
      | .cont cur result _ => scan_loop D format m fuel cur result
      | .fault => none

/-- The cursor advances of the successive iterations of the same loop. -/
def scan_advances (D : Decoders) (format : PrintFormat) (m : Bool) :
    Nat → List Byte → List Byte → Option (List Nat)
  | 0, _, _ => none
  | fuel + 1, cur, result =>
    if cur = [] then some []
    else
      match scan_step D format m cur result with
      | .brk _ a => some [a]
      | .cont cur result a => (scan_advances D format m fuel cur result).map (a :: ·)
      | .fault => none

/-- Lines 115-181. An iteration that does not move the cursor repeats for
ever, so a run that ends has at most `strSymbol.length + 1` iterations. The
flag `u` only changes the buffering of `stdout`. The returned list is not
bounded by the capacity of a `std::string`. -/
def demangled_conv (D : Decoders) (strSymbol : List Byte) (b m u : Bool) :
    Option (List Byte) :=
  let print_format := if b then PrintFormat.annotated else PrintFormat.plain
  let _ := u
  scan_loop D print_format m (strSymbol.length + 1) strSymbol []

/-- The cursor advances of `demangled_conv`. -/
def conv_advances (D : Decoders) (strSymbol : List Byte) (b m : Bool) :
    Option (List Nat) :=
  let print_format := if b then PrintFormat.annotated else PrintFormat.plain
  scan_advances D print_format m (strSymbol.length + 1) strSymbol []

/-- A decoder set that rejects every span. -/
def reject_all : Decoders where
  itaniumDemangle := fun _ => none
  rustDemangle := fun _ => none
  microsoftDemangle := fun _ => none
  isSwiftSymbol := fun _ => false
  demangleSymbolAsString := fun s => s

/-- An Itanium-only decoder set: `_Z4funcPci` is `func(char*, int)`. -/
def itanium_func : Decoders where
  itaniumDemangle := fun s =>
    if s = [95, 90, 52, 102, 117, 110, 99, 80, 99, 105] then
      some (c_str [102, 117, 110, 99, 40, 99, 104, 97, 114, 42, 44, 32, 105, 110, 116, 41])
    else none
  rustDemangle := fun _ => none
  microsoftDemangle := fun _ => none
  isSwiftSymbol := fun _ => false
  demangleSymbolAsString := fun s => s

/-- A Microsoft-only decoder set: `?a?b` is `d` and ends after two bytes, `?b`
is `e`. -/
def ms_short : Decoders where
  itaniumDemangle := fun _ => none
  rustDemangle := fun _ => none
  microsoftDemangle := fun s =>
    if s = [63, 97, 63, 98] then some (c_str [100], 2)
    else if s = [63, 98] then some (c_str [101], 2)
    else none
  isSwiftSymbol := fun _ => false
  demangleSymbolAsString := fun s => s

/-- A Microsoft-only decoder set: `?f@@3` is `f` and ends after four bytes. -/
def ms_digits : Decoders where
  itaniumDemangle := fun _ => none
  rustDemangle := fun _ => none
  microsoftDemangle := fun s =>
    if s = [63, 102, 64, 64, 51] then some (c_str [102], 4) else none
  isSwiftSymbol := fun _ => false
  demangleSymbolAsString := fun s => s

/-- A decoder set in which both the Itanium and the Microsoft decoder accept
`_Z4funcPci`, the Microsoft one after a single byte. -/
def itanium_and_ms : Decoders where
  itaniumDemangle := fun s =>
    if s = [95, 90, 52, 102, 117, 110, 99, 80, 99, 105] then
      some (c_str [102, 117, 110, 99, 40, 99, 104, 97, 114, 42, 44, 32, 105, 110, 116, 41])
    else none
  rustDemangle := fun _ => none
  microsoftDemangle := fun s =>
    if s = [95, 90, 52, 102, 117, 110, 99, 80, 99, 105] then some (c_str [109], 1)
    else none
  isSwiftSymbol := fun _ => true
  demangleSymbolAsString := fun _ => [115]

/-- The text made of `n` copies of `_Zx` followed by a blank; 4 n bytes. -/
def rejected_spans : Nat → List Byte
  | 0 => []
  | n + 1 => [95, 90, 120, 32] ++ rejected_spans n

/-- A Swift-only decoder set whose demangler returns every span unchanged. -/
def swift_noop : Decoders where
  itaniumDemangle := fun _ => none
  rustDemangle := fun _ => none
  microsoftDemangle := fun _ => none
  isSwiftSymbol := fun _ => true
  demangleSymbolAsString := fun s => s

/-- The same outcome with the cursor advance increased by `k`. -/
def Step.shift (k : Nat) : Step → Step
  | .brk result a => .brk result (k + a)
  | .cont cur result a => .cont cur result (k + a)
  | .fault => .fault

/-- None of the first `k` bytes of `cur` that is a trigger character starts a
candidate span: the branch chain of lines 146-165 fails at each of them. -/
def unclassified (cur : List Byte) (k : Nat) : Prop :=
  ∀ i, i < k → cur.getD i 0 ∈ triggers → scheme_at (cur.drop i) = none

instance (cur : List Byte) (k : Nat) : Decidable (unclassified cur k) := by
  unfold unclassified
  infer_instance

/-- The byte written in print-all mode for an input byte outside every
candidate span: a literal byte is copied (line 137), a byte at which `strcspn`
stops is answered by `_` (line 168). -/
def fallback_byte (c : Byte) : Byte :=
  if c = 0 ∨ c ∈ triggers then 95 else c

/-- Every decoder rejects the span `s`: the three `char*` decoders return null
and Swift does not recognise `s` or returns it unchanged. -/
def rejected (D : Decoders) (s : List Byte) : Prop :=
  D.itaniumDemangle s = none ∧ D.rustDemangle s = none ∧
    D.microsoftDemangle s = none ∧
    (D.isSwiftSymbol s = false ∨ D.demangleSymbolAsString s = s)

instance (D : Decoders) (s : List Byte) : Decidable (rejected D s) := by
  unfold rejected
  infer_instance

/-! ## The C library models -/

theorem strcspn_nil (r : List Byte) : strcspn [] r = 0 := rfl

theorem strcspn_cons (c : Byte) (s r : List Byte) :
    strcspn (c :: s) r = if (c != 0 && !r.contains c) = true then strcspn s r + 1 else 0 := by
  unfold strcspn
  rw [List.takeWhile_cons]
  split <;> simp

theorem strcspn_le (s r : List Byte) : strcspn s r ≤ s.length := by
  unfold strcspn
  exact (List.takeWhile_sublist _).length_le

/-- A run of bytes that are neither NUL nor in `reject` is skipped whole. -/
theorem strcspn_literal (r lit rest : List Byte)
    (hnul : ∀ c ∈ lit, c ≠ 0) (hrej : ∀ c ∈ lit, c ∉ r) :
    strcspn (lit ++ rest) r = lit.length + strcspn rest r := by
  induction lit with
  | nil => simp
  | cons a t ih =>
    have ha0 : a ≠ 0 := hnul a (List.mem_cons_self _ _)
    have har : a ∉ r := hrej a (List.mem_cons_self _ _)
    have ht := ih (fun c hc => hnul c (List.mem_cons_of_mem _ hc))
      (fun c hc => hrej c (List.mem_cons_of_mem _ hc))
    rw [List.cons_append, strcspn_cons, ht]
    simp [ha0, har]
    omega

/-- The byte at which `strcspn` stops is a NUL or a byte of `reject`. -/
theorem strcspn_stop (r : List Byte) :
    ∀ (s : List Byte) (c : Byte) (rest : List Byte),
      s.drop (strcspn s r) = c :: rest → c = 0 ∨ c ∈ r := by
  intro s
  induction s with
  | nil => intro c rest h; simp [strcspn_nil] at h
  | cons a t ih =>
    intro c rest h
    rw [strcspn_cons] at h
    by_cases hp : (a != 0 && !r.contains a) = true
    · rw [if_pos hp, List.drop_succ_cons] at h
      exact ih c rest h
    · rw [if_neg hp, List.drop_zero] at h
      obtain ⟨hac, _⟩ := List.cons.inj h
      subst hac
      simp at hp
      by_cases h0 : a = 0
      · exact Or.inl h0
      · exact Or.inr (hp h0)

theorem strcspn_of_stop (r : List Byte) (c : Byte) (rest : List Byte)
    (h : c = 0 ∨ c ∈ r) : strcspn (c :: rest) r = 0 := by
  rw [strcspn_cons]
  rcases h with h | h
  · simp [h]
  · simp [h]

theorem mangle_run_le (p : Byte → Bool) (cur : List Byte) :
    mangle_run p cur ≤ cur.length := by
  unfold mangle_run
  exact (List.takeWhile_sublist _).length_le

/-- A span of class bytes followed by the end or by a byte outside the class
is read whole. -/
theorem mangle_run_span (p : Byte → Bool) (s q : List Byte)
    (hs : ∀ c ∈ s, p c = true) (hq : ∀ c ∈ q.head?, p c = false) :
    mangle_run p (s ++ q) = s.length := by
  induction s with
  | nil =>
    cases q with
    | nil => rfl
    | cons a t =>
      have := hq a (by simp)
      simp [mangle_run, List.takeWhile_cons, this]
  | cons a t ih =>
    have ha := hs a (List.mem_cons_self _ _)
    have := ih (fun c hc => hs c (List.mem_cons_of_mem _ hc))
    unfold mangle_run at this ⊢
    simp [List.takeWhile_cons, ha, this]

theorem mangle_run_all (p : Byte → Bool) (s : List Byte)
    (hs : ∀ c ∈ s, p c = true) : mangle_run p s = s.length := by
  have := mangle_run_span p s [] hs (by simp)
  simpa using this

/-! ## The loop -/

theorem scan_loop_nil (D : Decoders) (f : PrintFormat) (m : Bool) (fuel : Nat)
    (result : List Byte) : scan_loop D f m (fuel + 1) [] result = some result := by
  simp [scan_loop]

theorem strcspn_all_literal (r input : List Byte)
    (hnul : ∀ c ∈ input, c ≠ 0) (hrej : ∀ c ∈ input, c ∉ r) :
    strcspn input r = input.length := by
  have := strcspn_literal r input [] hnul hrej
  simpa [strcspn_nil] using this

/-- An iteration over a cursor that holds only literal bytes takes the `break`
of line 142. -/
theorem scan_step_literal (D : Decoders) (f : PrintFormat) (m : Bool)
    (cur result : List Byte)
    (hnul : ∀ c ∈ cur, c ≠ 0) (htrig : ∀ c ∈ cur, c ∉ triggers) :
    scan_step D f m cur result =
      .brk (if m then result else result ++ cur) cur.length := by
  have h := strcspn_all_literal triggers cur hnul htrig
  simp [scan_step, h]

/-- An iteration that starts on a classified byte hands the span to
`demangled` and moves the cursor by the reported count. -/
theorem scan_step_dispatch (D : Decoders) (f : PrintFormat) (m : Bool)
    (cur result : List Byte) (n : Nat)
    (hstop : strcspn cur triggers = 0) (hne : cur ≠ [])
    (hn : n_sym_at cur = some n) :
    scan_step D f m cur result =
      if (demangled D result f (cur.take n) n).2 ≤ cur.length then
        .cont (cur.drop (demangled D result f (cur.take n) n).2)
          (result ++ (demangled D result f (cur.take n) n).1)
          (demangled D result f (cur.take n) n).2
      else .fault := by
  simp [scan_step, hstop, hne, hn]

/-- An iteration that starts on an unclassified stop byte writes `_` in
print-all mode and moves the cursor by one byte. -/
theorem scan_step_fallback (D : Decoders) (f : PrintFormat) (m : Bool)
    (cur result : List Byte)
    (hstop : strcspn cur triggers = 0) (hne : cur ≠ [])
    (hn : scheme_at cur = none) :
    scan_step D f m cur result =
      .cont (cur.drop 1) (if m then result else result ++ [95]) 1 := by
  simp [scan_step, hstop, hne, n_sym_at, hn]

theorem c_str_of_nonul (s : List Byte) (h : ∀ c ∈ s, c ≠ 0) :
    (c_str s).bytes = s := by
  unfold c_str
  simp only
  rw [List.takeWhile_eq_self_iff]
  intro c hc
  simp [h c hc]

theorem itanium_char_ne_zero (c : Byte) (h : is_mangle_char_itanium c = true) :
    c ≠ 0 := by
  intro h0
  subst h0
  simp [is_mangle_char_itanium] at h

theorem append_formatted_plain (origin : List Byte) (name : CStr) (prec : Nat)
    (data : List Byte) :
    append_formatted origin .plain name prec data = origin ++ name.bytes := by
  unfold append_formatted snprintf
  by_cases h : name.bytes = []
  · simp [h]
  · have : 0 < name.bytes.length := List.length_pos.mpr h
    simp [h]

theorem append_formatted_annotated (origin : List Byte) (name : CStr)
    (prec : Nat) (data : List Byte) :
    append_formatted origin .annotated name prec data =
      origin ++ ([34] ++ name.bytes ++ [34, 32, 40] ++
        (c_str data).bytes.take prec ++ [41]) := by
  unfold append_formatted snprintf
  simp

theorem take_strcspn_literal (r : List Byte) :
    ∀ (s : List Byte), ∀ c ∈ s.take (strcspn s r), c ≠ 0 ∧ c ∉ r := by
  intro s
  induction s with
  | nil => intro c hc; simp at hc
  | cons a t ih =>
    intro c hc
    rw [strcspn_cons] at hc
    by_cases hp : (a != 0 && !r.contains a) = true
    · rw [if_pos hp, List.take_succ_cons] at hc
      rcases List.mem_cons.mp hc with h | h
      · subst h
        simpa using hp
      · exact ih c h
    · rw [if_neg hp] at hc
      simp at hc

/-- A literal run in front of the cursor is absorbed by the iteration that
follows it. -/
theorem scan_step_literal_prefix (D : Decoders) (f : PrintFormat) (m : Bool)
    (lit cur result : List Byte)
    (hnul : ∀ c ∈ lit, c ≠ 0) (htrig : ∀ c ∈ lit, c ∉ triggers) :
    scan_step D f m (lit ++ cur) result =
      (scan_step D f m cur (if m then result else result ++ lit)).shift lit.length := by
  have h := strcspn_literal triggers lit cur hnul htrig
  unfold scan_step
  simp only [h, List.drop_append, List.take_append]
  cases m
  · simp only [Bool.false_eq_true, if_false, List.append_assoc]
    split
    · rfl
    · split
      · simp [Step.shift, Nat.add_assoc]
      · split
        · simp [Step.shift, Nat.add_assoc]
        · rfl
  · simp only [if_true]
    split
    · rfl
    · split
      · simp [Step.shift, Nat.add_assoc]
      · split
        · simp [Step.shift, Nat.add_assoc]
        · rfl

theorem scan_loop_literal_prefix (D : Decoders) (f : PrintFormat) (m : Bool)
    (fuel : Nat) (lit cur result : List Byte)
    (hnul : ∀ c ∈ lit, c ≠ 0) (htrig : ∀ c ∈ lit, c ∉ triggers) :
    scan_loop D f m fuel (lit ++ cur) result =
      scan_loop D f m fuel cur (if m then result else result ++ lit) := by
  cases fuel with
  | zero => rfl
  | succ n =>
    by_cases hl : lit = []
    · subst hl
      cases m <;> simp
    · by_cases hc : cur = []
      · subst hc
        have hs := scan_step_literal D f m lit result hnul htrig
        simp [scan_loop, hl, hs]
      · have hlc : lit ++ cur ≠ [] := by simp [hl]
        simp only [scan_loop, hlc, hc, if_false,
          scan_step_literal_prefix D f m lit cur result hnul htrig]
        cases scan_step D f m cur (if m then result else result ++ lit) <;> rfl

theorem scan_loop_mono_succ (D : Decoders) (f : PrintFormat) (m : Bool) :
    ∀ (fuel : Nat) (cur result out : List Byte),
      scan_loop D f m fuel cur result = some out →
      scan_loop D f m (fuel + 1) cur result = some out := by
  intro fuel
  induction fuel with
  | zero => intro cur result out h; simp [scan_loop] at h
  | succ n ih =>
    intro cur result out h
    rw [scan_loop] at h ⊢
    by_cases hc : cur = []
    · simpa [hc] using h
    · simp only [hc, if_false] at h ⊢
      cases hs : scan_step D f m cur result with
      | brk r a => simpa [hs] using h
      | cont c r a =>
        simp only [hs] at h ⊢
        exact ih c r out h
      | fault => simp [hs] at h

/-- More fuel does not change a result. -/
theorem scan_loop_mono (D : Decoders) (f : PrintFormat) (m : Bool)
    (fuel fuel' : Nat) (cur result out : List Byte) (hle : fuel ≤ fuel')
    (h : scan_loop D f m fuel cur result = some out) :
    scan_loop D f m fuel' cur result = some out := by
  induction hle with
  | refl => exact h
  | step _ ih => exact scan_loop_mono_succ D f m _ cur result out ih

/-- A NUL byte inside the buffer is classified into no scheme. -/
theorem scheme_at_nul (rest : List Byte) : scheme_at (0 :: rest) = none := by
  simp [scheme_at, is_plausible_itanium_prefix, is_plausible_rust_prefix,
    is_plausible_swift_prefix, c_str, strstr]

theorem getD_drop_zero (l : List Byte) (i : Nat) :
    (l.drop i).getD 0 0 = l.getD i 0 := by
  simp [List.getD_eq_getElem?_getD, List.getElem?_drop]

theorem unclassified_tail (c : Byte) (t : List Byte) (k : Nat)
    (h : unclassified (c :: t) (k + 1)) : unclassified t k := by
  intro i hi hmem
  have := h (i + 1) (by omega) (by simpa using hmem)
  simpa using this

/-- The scanner crosses `k` leading bytes without a candidate span: literal
bytes are copied, stop bytes are answered by `_`, nothing is dispatched. -/
theorem scan_loop_unclassified_prefix (D : Decoders) (f : PrintFormat) (m : Bool) :
    ∀ (k fuel : Nat) (cur result out : List Byte),
      k ≤ cur.length → unclassified cur k →
      scan_loop D f m fuel (cur.drop k)
        (if m then result else result ++ (cur.take k).map fallback_byte) = some out →
      scan_loop D f m (fuel + k) cur result = some out := by
  intro k
  induction k with
  | zero =>
    intro fuel cur result out _ _ h
    cases m <;> simpa using h
  | succ k ih =>
    intro fuel cur result out hk hu h
    cases cur with
    | nil => simp at hk
    | cons c t =>
      have hk' : k ≤ t.length := by simpa using hk
      have hu' := unclassified_tail c t k hu
      by_cases hstop : c = 0 ∨ c ∈ triggers
      · have hsch : scheme_at (c :: t) = none := by
          rcases hstop with h0 | ht
          · subst h0; exact scheme_at_nul t
          · have := hu 0 (by omega) (by simpa using ht)
            simpa using this
        have hz := strcspn_of_stop triggers c t hstop
        have hstep := scan_step_fallback D f m (c :: t) result hz (by simp) hsch
        have hrec := ih fuel t (if m then result else result ++ [95]) out hk' hu' (by
          cases m
          · simpa [fallback_byte, hstop] using h
          · simpa using h)
        rw [show fuel + (k + 1) = (fuel + k) + 1 by omega, scan_loop]
        simp only [List.cons_ne_nil, if_false, hstep, List.drop_succ_cons, List.drop_zero]
        exact hrec
      · have hc0 : c ≠ 0 := fun h0 => hstop (Or.inl h0)
        have hct : c ∉ triggers := fun ht => hstop (Or.inr ht)
        have hlit := scan_loop_literal_prefix D f m (fuel + (k + 1)) [c] t result
          (by simpa using hc0) (by simpa using hct)
        have hrec := ih fuel t (if m then result else result ++ [c]) out hk' hu' (by
          cases m
          · simpa [fallback_byte, hstop] using h
          · simpa using h)
        rw [show c :: t = [c] ++ t by rfl, hlit]
        exact scan_loop_mono D f m (fuel + k) (fuel + (k + 1)) _ _ out (by omega) hrec

/-- An input without a candidate span: print-all mode writes `fallback_byte`
of every byte, matching-only mode writes nothing. -/
theorem scan_loop_unclassified (D : Decoders) (f : PrintFormat) (m : Bool)
    (cur result : List Byte) (hu : unclassified cur cur.length) :
    scan_loop D f m (cur.length + 1) cur result
      = some (if m then result else result ++ cur.map fallback_byte) := by
  rw [Nat.add_comm]
  apply scan_loop_unclassified_prefix D f m cur.length 1 cur result _ (Nat.le_refl _) hu
  simp [scan_loop]

/-! ## C1 -/

/-- C1, evaluated at the input `a_Zb` with every decoder rejecting the span
`_Zb`: print-all mode returns `aa_Zb`, the literal `a` twice, and not the
input. -/
theorem totality_fails_literal_before_span :
    demangled_conv reject_all [97, 95, 90, 98] false false false
      = some [97, 97, 95, 90, 98] := by
  decide

/-! ## C2 -/

/-- C2, evaluated at the input `a\0b`, which holds no trigger character:
`strcspn` stops at the NUL byte, the no-match branch of line 168 writes `_`
for it, and print-all mode returns `a_b` instead of the input. -/
theorem nul_literal_written_as_underscore :
    (∀ c ∈ [97, 0, 98], c ∉ triggers) ∧
    demangled_conv reject_all [97, 0, 98] false false false = some [97, 95, 98] ∧
    demangled_conv reject_all [97, 0, 98] false false false ≠ some [97, 0, 98] := by
  decide

/-- On inputs without NUL byte the copy of line 137 is exact: an input that
holds no NUL byte and none of the trigger characters `_`, `?`, `$` is returned
unchanged in print-all mode, whatever the decoders do and whichever format
template is active. -/
theorem no_trigger_unchanged (D : Decoders) (input : List Byte) (b u : Bool)
    (hnul : ∀ c ∈ input, c ≠ 0) (htrig : ∀ c ∈ input, c ∉ triggers) :
    demangled_conv D input b false u = some input := by
  unfold demangled_conv
  by_cases he : input = []
  · subst he
    simp [scan_loop]
  · simp [scan_loop, he, scan_step_literal D _ false input [] hnul htrig]

/-- The input `hello world` is returned unchanged. -/
theorem no_trigger_unchanged_witness :
    (∀ c ∈ [104, 101, 108, 108, 111, 32, 119, 111, 114, 108, 100], c ≠ 0) ∧
    (∀ c ∈ [104, 101, 108, 108, 111, 32, 119, 111, 114, 108, 100], c ∉ triggers) ∧
    demangled_conv itanium_func
      [104, 101, 108, 108, 111, 32, 119, 111, 114, 108, 100] true false false
      = some [104, 101, 108, 108, 111, 32, 119, 111, 114, 108, 100] :=
  ⟨by decide, by decide,
    no_trigger_unchanged itanium_func
      [104, 101, 108, 108, 111, 32, 119, 111, 114, 108, 100] true false
      (by decide) (by decide)⟩

/-! ## C3 -/

/-- C3: an input that is exactly one Itanium-classified candidate span `S`
(its first byte is the trigger `_` or `$`, the prefix heuristic holds at it,
every byte is of the Itanium class) which the Itanium decoder decodes to a
non-empty name `d` is turned into `d` by the plain template and into
`"d" (S)` by the annotated template. -/
theorem itanium_single_span (D : Decoders) (S : List Byte) (d : CStr)
    (m u : Bool)
    (hhead : S.head? = some 95 ∨ S.head? = some 36)
    (hpre : is_plausible_itanium_prefix S = true)
    (hclass : ∀ c ∈ S, is_mangle_char_itanium c = true)
    (hdec : D.itaniumDemangle S = some d) (_hname : d.bytes ≠ []) :
    demangled_conv D S false m u = some d.bytes ∧
    demangled_conv D S true m u
      = some ([34] ++ d.bytes ++ [34, 32, 40] ++ S ++ [41]) := by
  obtain ⟨c, t, rfl⟩ : ∃ c t, S = c :: t := by
    cases S with
    | nil => simp at hhead
    | cons c t => exact ⟨c, t, rfl⟩
  have hc : c = 95 ∨ c = 36 := by simpa using hhead
  have hstop : strcspn (c :: t) triggers = 0 :=
    strcspn_of_stop triggers c t (Or.inr (by rcases hc with h | h <;> simp [h, triggers]))
  have hsch : scheme_at (c :: t) = some .itanium := by
    have h63 : (c == 63) = false := by rcases hc with h | h <;> simp [h]
    simp [scheme_at, h63, hpre]
  have hn : n_sym_at (c :: t) = some (c :: t).length := by
    simp only [n_sym_at, hsch, Option.map_some', mangle_char]
    rw [mangle_run_all _ _ hclass]
  have hnul : ∀ x ∈ c :: t, x ≠ 0 := fun x hx => itanium_char_ne_zero x (hclass x hx)
  have hstep : ∀ (f : PrintFormat), scan_step D f m (c :: t) [] =
      .cont [] (append_formatted [] f d (c :: t).length (c :: t)) (c :: t).length := by
    intro f
    rw [scan_step_dispatch D f m (c :: t) [] _ hstop (by simp) hn]
    simp [demangled, hdec]
  constructor
  · simp only [demangled_conv, scan_loop, hstep, Bool.false_eq_true, if_false]
    simp [scan_loop, append_formatted_plain]
  · simp only [demangled_conv, scan_loop, hstep, if_true]
    simp [scan_loop, append_formatted_annotated, c_str_of_nonul _ hnul]

/-- C3 at `_Z4funcPci`, decoded to `func(char*, int)`. -/
theorem itanium_single_span_witness :
    demangled_conv itanium_func [95, 90, 52, 102, 117, 110, 99, 80, 99, 105]
        false false false
      = some (c_str [102, 117, 110, 99, 40, 99, 104, 97, 114, 42, 44, 32, 105,
          110, 116, 41]).bytes ∧
    demangled_conv itanium_func [95, 90, 52, 102, 117, 110, 99, 80, 99, 105]
        true false false
      = some ([34] ++ (c_str [102, 117, 110, 99, 40, 99, 104, 97, 114, 42, 44, 32,
          105, 110, 116, 41]).bytes ++ [34, 32, 40]
          ++ [95, 90, 52, 102, 117, 110, 99, 80, 99, 105] ++ [41]) :=
  itanium_single_span itanium_func [95, 90, 52, 102, 117, 110, 99, 80, 99, 105]
    (c_str [102, 117, 110, 99, 40, 99, 104, 97, 114, 42, 44, 32, 105, 110, 116, 41])
    false false (by decide) (by decide) (by decide) (by rfl) (by decide)

/-! ## C4 -/

/-- C4, evaluated at the claim's own witness `x=_Z4funcPci;` with
annotate-matches and print-all: the code returns
`x=x="func(char*, int)" (_Z4funcPci);`, with the literal `x=` twice. -/
theorem annotated_embedded_span_doubles_literal :
    demangled_conv itanium_func
        [120, 61, 95, 90, 52, 102, 117, 110, 99, 80, 99, 105, 59] true false false
      = some ([120, 61] ++ [120, 61] ++ [34] ++
          [102, 117, 110, 99, 40, 99, 104, 97, 114, 42, 44, 32, 105, 110, 116, 41]
          ++ [34, 32, 40] ++ [95, 90, 52, 102, 117, 110, 99, 80, 99, 105] ++ [41]
          ++ [59]) := by
  decide

/-! ## C5 -/

/-- C5, evaluated at the input `_a\0`: its only trigger byte is `_`, no
scheme prefix heuristic holds at it, and print-all mode returns `_a_`
instead of the input: the NUL byte is answered by `_`. -/
theorem nul_after_unmatched_underscore :
    (∀ c ∈ [95, 97, 0], c ≠ 63 ∧ c ≠ 36) ∧
    (∀ i, i < [95, 97, 0].length → [95, 97, 0].getD i 0 = 95 →
      is_plausible_itanium_prefix ([95, 97, 0].drop i) = false ∧
      is_plausible_rust_prefix ([95, 97, 0].drop i) = false ∧
      is_plausible_swift_prefix ([95, 97, 0].drop i) = false) ∧
    demangled_conv reject_all [95, 97, 0] false false false = some [95, 97, 95] ∧
    demangled_conv reject_all [95, 97, 0] false false false ≠ some [95, 97, 0] := by
  decide

/-- On inputs without NUL byte the no-match branch restores every unmatched
`_`: an input without NUL byte whose only trigger bytes are `_`, none of them
at a position where a scheme prefix heuristic holds, is returned unchanged in
print-all mode. -/
theorem unmatched_underscores_unchanged (D : Decoders) (input : List Byte)
    (b u : Bool)
    (hnul : ∀ c ∈ input, c ≠ 0)
    (honly : ∀ c ∈ input, c ≠ 63 ∧ c ≠ 36)
    (hno : ∀ i, i < input.length → input.getD i 0 = 95 →
      is_plausible_itanium_prefix (input.drop i) = false ∧
      is_plausible_rust_prefix (input.drop i) = false ∧
      is_plausible_swift_prefix (input.drop i) = false) :
    demangled_conv D input b false u = some input := by
  have hu : unclassified input input.length := by
    intro i hi hmem
    have hin : input.getD i 0 ∈ input := by
      rw [List.getD_eq_getElem _ _ hi]
      exact List.getElem_mem _
    have h95 : input.getD i 0 = 95 := by
      have := honly _ hin
      simp only [triggers, List.mem_cons, List.mem_singleton, List.not_mem_nil,
        or_false] at hmem
      rcases hmem with h | h | h
      · exact h
      · exact absurd h this.1
      · exact absurd h this.2
    obtain ⟨h1, h2, h3⟩ := hno i hi h95
    unfold scheme_at
    rw [getD_drop_zero, h95, h1, h2, h3]
    rfl
  have hmap : input.map fallback_byte = input := by
    conv_rhs => rw [← List.map_id input]
    apply List.map_congr_left
    intro c hc
    have h0 := hnul c hc
    have h1 := honly c hc
    unfold fallback_byte
    by_cases ht : c ∈ triggers
    · simp only [triggers, List.mem_cons, List.mem_singleton, List.not_mem_nil,
        or_false] at ht
      rcases ht with h | h | h
      · simp [h, triggers]
      · exact absurd h h1.1
      · exact absurd h h1.2
    · simp [h0, ht]
  unfold demangled_conv
  simp only
  rw [scan_loop_unclassified D _ false input [] hu]
  simp [hmap]

/-- The input `prefix _BOGUS_ suffix` is returned unchanged. -/
theorem unmatched_underscores_unchanged_witness :
    demangled_conv itanium_func
      [112, 114, 101, 102, 105, 120, 32, 95, 66, 79, 71, 85, 83, 95, 32, 115,
        117, 102, 102, 105, 120] false false false
      = some [112, 114, 101, 102, 105, 120, 32, 95, 66, 79, 71, 85, 83, 95, 32,
        115, 117, 102, 102, 105, 120] :=
  unmatched_underscores_unchanged itanium_func
    [112, 114, 101, 102, 105, 120, 32, 95, 66, 79, 71, 85, 83, 95, 32, 115,
      117, 102, 102, 105, 120] false false (by decide) (by decide) (by decide)

/-! ## C6 -/

/-- C6 as stated fails: with matching-only enabled and every decoder
rejecting every span, the input `_Zx` is returned whole, not dropped. -/
theorem matching_only_rejected_span_counterexample :
    (∀ s, rejected reject_all s) ∧
    demangled_conv reject_all [95, 90, 120] false true false = some [95, 90, 120] ∧
    demangled_conv reject_all [95, 90, 120] false true false ≠ some [] :=
  ⟨fun _ => ⟨rfl, rfl, rfl, Or.inl rfl⟩, by decide, by decide⟩

/-- C6, amended: with matching-only enabled, an input in which the scanner
finds no candidate span (no trigger byte is classified into a scheme) gives
the empty output, whatever the decoders do. -/
theorem matching_only_no_span_empty (D : Decoders) (input : List Byte)
    (b u : Bool) (hu : unclassified input input.length) :
    demangled_conv D input b true u = some [] := by
  unfold demangled_conv
  simp only
  rw [scan_loop_unclassified D _ true input [] hu]
  simp

/-- C6, amended, at `prefix _BOGUS_ suffix`. -/
theorem matching_only_no_span_empty_witness :
    unclassified [112, 114, 101, 102, 105, 120, 32, 95, 66, 79, 71, 85, 83, 95,
      32, 115, 117, 102, 102, 105, 120] 21 ∧
    demangled_conv itanium_func
      [112, 114, 101, 102, 105, 120, 32, 95, 66, 79, 71, 85, 83, 95, 32, 115,
        117, 102, 102, 105, 120] true true false = some [] :=
  ⟨by decide, matching_only_no_span_empty itanium_func
    [112, 114, 101, 102, 105, 120, 32, 95, 66, 79, 71, 85, 83, 95, 32, 115,
      117, 102, 102, 105, 120] true false (by decide)⟩

/-! ## C7 -/

theorem demangled_rejected (D : Decoders) (origin : List Byte) (f : PrintFormat)
    (s : List Byte) (n : Nat) (h : rejected D s) :
    demangled D origin f s n = (origin ++ s, n) := by
  obtain ⟨h1, h2, h3, h4⟩ := h
  unfold demangled
  rcases h4 with h4 | h4
  · simp [h1, h2, h3, h4]
  · by_cases hs : D.isSwiftSymbol s = true
    · simp [h1, h2, h3, h4, hs]
    · simp [h1, h2, h3, hs]

/-- C7: in print-matching mode, for an input `P ++ S ++ Q` whose only
candidate span is `S` (no trigger byte of `P` or of `Q` is classified, `S`
starts at a trigger byte and the scanner bounds the span at `S`), when all
four decoders reject `S` the output is exactly `S`, with either template. -/
theorem rejected_span_kept_in_matching_mode (D : Decoders) (P S Q : List Byte)
    (b u : Bool)
    (hP : unclassified (P ++ S ++ Q) P.length)
    (hS : S.getD 0 0 ∈ triggers)
    (hspan : n_sym_at (S ++ Q) = some S.length)
    (hQ : unclassified Q Q.length)
    (hrej : rejected D S) :
    demangled_conv D (P ++ S ++ Q) b true u = some S := by
  obtain ⟨c, t, rfl⟩ : ∃ c t, S = c :: t := by
    cases S with
    | nil => simp [triggers] at hS
    | cons c t => exact ⟨c, t, rfl⟩
  have hc : c ∈ triggers := by simpa using hS
  generalize hf : (if b then PrintFormat.annotated else PrintFormat.plain) = f
  have hz : strcspn (c :: t ++ Q) triggers = 0 :=
    strcspn_of_stop triggers c (t ++ Q) (Or.inr hc)
  have hstep : scan_step D f true (c :: t ++ Q) [] = .cont Q (c :: t) (c :: t).length := by
    rw [scan_step_dispatch D f true (c :: t ++ Q) [] _ hz (by simp) hspan]
    have htake : (c :: t ++ Q).take (c :: t).length = c :: t := by
      simp
    rw [htake, demangled_rejected D [] f (c :: t) _ hrej]
    simp
  have hQloop := scan_loop_unclassified D f true Q (c :: t) hQ
  simp only [if_true] at hQloop
  have hSQ : scan_loop D f true (Q.length + 2) (c :: t ++ Q) [] = some (c :: t) := by
    rw [show Q.length + 2 = (Q.length + 1) + 1 by rfl, scan_loop]
    simp only [List.cons_append, List.cons_ne_nil, if_false]
    rw [← List.cons_append, hstep]
    exact hQloop
  have hall := scan_loop_unclassified_prefix D f true P.length (Q.length + 2)
    (P ++ (c :: t) ++ Q) [] (c :: t) (by simp) hP (by
      simpa [List.append_assoc] using hSQ)
  unfold demangled_conv
  simp only [hf]
  exact scan_loop_mono D f true _ _ _ _ _ (by simp; omega) hall

/-- C7 at `ab _Zx cd_`, whose only candidate span is `_Zx`. -/
theorem rejected_span_kept_in_matching_mode_witness :
    unclassified ([97, 98, 32] ++ [95, 90, 120] ++ [32, 99, 100, 95]) 3 ∧
    n_sym_at ([95, 90, 120] ++ [32, 99, 100, 95]) = some 3 ∧
    unclassified [32, 99, 100, 95] 4 ∧
    demangled_conv reject_all ([97, 98, 32] ++ [95, 90, 120] ++ [32, 99, 100, 95])
      true true false = some [95, 90, 120] :=
  ⟨by decide, by decide, by decide,
    rejected_span_kept_in_matching_mode reject_all [97, 98, 32] [95, 90, 120]
      [32, 99, 100, 95] true false (by decide) (by decide) (by decide) (by decide)
      ⟨rfl, rfl, rfl, Or.inl rfl⟩⟩

/-! ## C8 -/

/-- The count `demangled` leaves in `*n_used` is the one it was given, unless
the Microsoft decoder accepted the span and stored its own. -/
theorem demangled_n_used (D : Decoders) (origin : List Byte) (f : PrintFormat)
    (s : List Byte) (n : Nat) :
    (demangled D origin f s n).2 = n ∨
    ∃ d k, D.microsoftDemangle s = some (d, k) ∧ (demangled D origin f s n).2 = k := by
  unfold demangled
  cases h1 : D.itaniumDemangle s with
  | some d => exact Or.inl rfl
  | none =>
    cases h2 : D.rustDemangle s with
    | some d => exact Or.inl rfl
    | none =>
      cases h3 : D.microsoftDemangle s with
      | some p => exact Or.inr ⟨p.1, p.2, rfl, rfl⟩
      | none =>
        left
        simp only
        split
        · split <;> rfl
        · rfl

/-- The byte at which the scanner stops belongs to the character class of the
scheme it is classified into. -/
theorem mangle_char_at_stop (c : Byte) (rest : List Byte) (sch : Scheme)
    (hstop : c = 0 ∨ c ∈ triggers) (h : scheme_at (c :: rest) = some sch) :
    mangle_char sch c = true := by
  rcases hstop with h0 | ht
  · subst h0
    rw [scheme_at_nul] at h
    cases h
  · simp only [triggers, List.mem_cons, List.mem_singleton, List.not_mem_nil,
      or_false] at ht
    rcases ht with hc | hc | hc
    · subst hc
      cases sch <;> decide
    · subst hc
      simp only [scheme_at, List.getD_cons_zero, beq_self_eq_true, if_true,
        Option.some.injEq] at h
      subst h
      decide
    · subst hc
      cases sch with
      | rust =>
        simp only [scheme_at, is_plausible_rust_prefix, List.getD_cons_zero] at h
        split_ifs at h <;> simp_all
      | _ => decide

/-- A candidate span has at least one byte and ends inside the buffer. -/
theorem n_sym_at_bounds (c : Byte) (rest : List Byte) (n : Nat)
    (hstop : c = 0 ∨ c ∈ triggers) (h : n_sym_at (c :: rest) = some n) :
    1 ≤ n ∧ n ≤ (c :: rest).length := by
  unfold n_sym_at at h
  cases hs : scheme_at (c :: rest) with
  | none => simp [hs] at h
  | some sch =>
    simp only [hs, Option.map_some', Option.some.injEq] at h
    have hc := mangle_char_at_stop c rest sch hstop hs
    subst h
    refine ⟨?_, mangle_run_le _ _⟩
    simp [mangle_run, List.takeWhile_cons, hc]

/-- One iteration either takes the `break` at `end` or moves the cursor forward by at least one byte, inside the
buffer. -/
theorem scan_step_progress (D : Decoders) (f : PrintFormat) (m : Bool)
    (cur result : List Byte)
    (hms : ∀ s d k, D.microsoftDemangle s = some (d, k) → 1 ≤ k ∧ k ≤ s.length) :
    (∃ r, scan_step D f m cur result = .brk r cur.length) ∨
    (∃ cur' r a, scan_step D f m cur result = .cont cur' r a ∧ 1 ≤ a ∧
      cur'.length + a = cur.length) := by
  have hle := strcspn_le cur triggers
  cases hd : cur.drop (strcspn cur triggers) with
  | nil =>
    left
    have hlen : cur.length ≤ strcspn cur triggers := List.drop_eq_nil_iff.mp hd
    have heq : strcspn cur triggers = cur.length := Nat.le_antisymm hle hlen
    exact ⟨if m then result else result ++ cur, by simp [scan_step, hd, heq]⟩
  | cons c rest =>
    right
    have hstop := strcspn_stop triggers cur c rest hd
    have hlen : cur.length = strcspn cur triggers + (rest.length + 1) := by
      have := congrArg List.length hd
      simp only [List.length_drop, List.length_cons] at this
      omega
    cases hn : n_sym_at (c :: rest) with
    | none =>
      have hs : ∃ r, scan_step D f m cur result
          = .cont rest r (strcspn cur triggers + 1) := by
        unfold scan_step
        simp only [hd, hn, reduceCtorEq, if_false]
        exact ⟨_, rfl⟩
      obtain ⟨r, hs⟩ := hs
      exact ⟨rest, r, strcspn cur triggers + 1, hs, by omega, by omega⟩
    | some n =>
      obtain ⟨hn1, hn2⟩ := n_sym_at_bounds c rest n hstop hn
      generalize hres : (if m then result
        else result ++ cur.take (strcspn cur triggers)) = res
      have hused : 1 ≤ (demangled D res f ((c :: rest).take n) n).2 ∧
          (demangled D res f ((c :: rest).take n) n).2 ≤ (c :: rest).length := by
        rcases demangled_n_used D res f ((c :: rest).take n) n with h | ⟨d, k, hk, h⟩
        · rw [h]; exact ⟨hn1, hn2⟩
        · rw [h]
          obtain ⟨h1, h2⟩ := hms _ d k hk
          refine ⟨h1, Nat.le_trans h2 ?_⟩
          simp only [List.length_take]
          omega
      refine ⟨(c :: rest).drop (demangled D res f ((c :: rest).take n) n).2,
        res ++ (demangled D res f ((c :: rest).take n) n).1,
        strcspn cur triggers + (demangled D res f ((c :: rest).take n) n).2,
        ?_, by omega, ?_⟩
      · unfold scan_step
        simp only [hd, hn, hres, if_pos hused.2]
        simp
      · have := hused.2
        simp only [List.length_drop, List.length_cons] at this ⊢
        omega

/-- The loop ends on every cursor shorter than the fuel; each iteration
moves the cursor forward and the advances add up to the length scanned. -/
theorem scan_loop_terminates (D : Decoders) (f : PrintFormat) (m : Bool)
    (hms : ∀ s d k, D.microsoftDemangle s = some (d, k) → 1 ≤ k ∧ k ≤ s.length) :
    ∀ (fuel : Nat) (cur result : List Byte), cur.length < fuel →
      ∃ out trace, scan_loop D f m fuel cur result = some out ∧
        scan_advances D f m fuel cur result = some trace ∧
        (∀ a ∈ trace, 1 ≤ a) ∧ trace.sum = cur.length := by
  intro fuel
  induction fuel with
  | zero => intro cur result h; omega
  | succ n ih =>
    intro cur result hlt
    by_cases hc : cur = []
    · subst hc
      exact ⟨result, [], by simp [scan_loop], by simp [scan_advances], by simp, by simp⟩
    · have hpos : 1 ≤ cur.length := List.length_pos.mpr hc
      rcases scan_step_progress D f m cur result hms with ⟨r, hs⟩ | ⟨cur', r, a, hs, ha, hl⟩
      · refine ⟨r, [cur.length], by simp [scan_loop, hc, hs],
          by simp [scan_advances, hc, hs], by simpa using hpos, by simp⟩
      · obtain ⟨out, trace, h1, h2, h3, h4⟩ := ih cur' r (by omega)
        refine ⟨out, a :: trace, by simp [scan_loop, hc, hs, h1],
          by simp [scan_advances, hc, hs, h2], ?_, by simp [h4]; omega⟩
        intro x hx
        rcases List.mem_cons.mp hx with h | h
        · omega
        · exact h3 x h

theorem sum_take_le (l : List Nat) (i : Nat) : (l.take i).sum ≤ l.sum := by
  conv_rhs => rw [← List.take_append_drop i l]
  rw [List.sum_append]
  omega

/-- The movement of the cursor alone, with the output taken as a list of any
length: for every input without NUL bytes and every decoder set in which the
Microsoft decoder, when it accepts a span, reports a consumed count between 1
and the span length, every iteration moves the cursor forward by at least one
byte (a candidate span has at least one byte), the cursor never exceeds the
input length, and the advances add up to the input length. This says nothing
of whether a `std::string` can hold the output built on the way. -/
theorem cursor_advances_with_unbounded_output (D : Decoders) (input : List Byte)
    (b m u : Bool)
    (_hnul : ∀ c ∈ input, c ≠ 0)
    (hms : ∀ s d k, D.microsoftDemangle s = some (d, k) → 1 ≤ k ∧ k ≤ s.length) :
    (∃ out trace, demangled_conv D input b m u = some out ∧
      conv_advances D input b m = some trace ∧
      (∀ a ∈ trace, 1 ≤ a) ∧
      (∀ i, (trace.take i).sum ≤ input.length) ∧
      trace.sum = input.length) ∧
    (∀ c rest n, (c = 0 ∨ c ∈ triggers) → n_sym_at (c :: rest) = some n → 1 ≤ n) := by
  constructor
  · obtain ⟨out, trace, h1, h2, h3, h4⟩ :=
      scan_loop_terminates D (if b then PrintFormat.annotated else PrintFormat.plain)
        m hms (input.length + 1) input [] (by omega)
    refine ⟨out, trace, h1, h2, h3, ?_, h4⟩
    intro i
    rw [← h4]
    exact sum_take_le trace i
  · intro c rest n hstop hn
    exact (n_sym_at_bounds c rest n hstop hn).1

theorem ms_short_in_span (s : List Byte) (d : CStr) (k : Nat)
    (h : ms_short.microsoftDemangle s = some (d, k)) : 1 ≤ k ∧ k ≤ s.length := by
  simp only [ms_short] at h
  split_ifs at h with h1 h2
  · cases h; subst h1; decide
  · cases h; subst h2; decide

/-- The input `?a?b` is scanned in two iterations of two bytes each. -/
theorem cursor_advances_with_unbounded_output_witness :
    (∃ out trace, demangled_conv ms_short [63, 97, 63, 98] false false false = some out ∧
      conv_advances ms_short [63, 97, 63, 98] false false = some trace ∧
      (∀ a ∈ trace, 1 ≤ a) ∧
      (∀ i, (trace.take i).sum ≤ [63, 97, 63, 98].length) ∧
      trace.sum = [63, 97, 63, 98].length) ∧
    (∀ c rest n, (c = 0 ∨ c ∈ triggers) → n_sym_at (c :: rest) = some n → 1 ≤ n) :=
  cursor_advances_with_unbounded_output ms_short [63, 97, 63, 98] false false false
    (by decide) ms_short_in_span

theorem rejected_spans_length (n : Nat) : (rejected_spans n).length = 4 * n := by
  induction n with
  | zero => rfl
  | succ n ih =>
    simp only [rejected_spans, List.length_append, List.length_cons, List.length_nil, ih]
    omega

theorem rejected_spans_nonul (n : Nat) : ∀ c ∈ rejected_spans n, c ≠ 0 := by
  induction n with
  | zero => intro c hc; simp [rejected_spans] at hc
  | succ n ih =>
    intro c hc
    simp only [rejected_spans, List.mem_append, List.mem_cons, List.mem_singleton,
      List.not_mem_nil, or_false] at hc
    rcases hc with (h | h | h | h) | h
    · rw [h]; decide
    · rw [h]; decide
    · rw [h]; decide
    · rw [h]; decide
    · exact ih c h

/-- The span found at `_Zx` followed by a blank is the three bytes `_Zx`. -/
theorem n_sym_at_Zx (rest : List Byte) :
    n_sym_at ([95, 90, 120] ++ 32 :: rest) = some 3 := by
  have hsch : scheme_at ([95, 90, 120] ++ 32 :: rest) = some .itanium := by
    have hw : is_plausible_itanium_prefix (95 :: 90 :: 120 :: 32 :: rest) = true := by
      simp [ is_plausible_itanium_prefix, c_str, List.takeWhile_cons, strstr,
        List.isPrefixOf]
    simp [scheme_at, hw]
  simp only [n_sym_at, hsch, Option.map_some', mangle_char]
  rw [mangle_run_span is_mangle_char_itanium [95, 90, 120] (32 :: rest)
    (by decide) (by simp [is_mangle_char_itanium])]
  rfl

/-- In matching mode with every span rejected, each of the `n` spans of
`rejected_spans n` turns the output `R` into `R ++ R ++ _Zx`: the length plus
three doubles at every span. -/
theorem scan_loop_rejected_spans (f : PrintFormat) :
    ∀ (n fuel : Nat) (R : List Byte), n < fuel →
      ∃ out, scan_loop reject_all f true fuel (rejected_spans n) R = some out ∧
        out.length + 3 = 2 ^ n * (R.length + 3) := by
  intro n
  induction n with
  | zero =>
    intro fuel R hlt
    obtain ⟨k, rfl⟩ : ∃ k, fuel = k + 1 := ⟨fuel - 1, by omega⟩
    exact ⟨R, by simp [rejected_spans, scan_loop], by simp⟩
  | succ n ih =>
    intro fuel R hlt
    obtain ⟨k, rfl⟩ : ∃ k, fuel = k + 1 := ⟨fuel - 1, by omega⟩
    have hcur : rejected_spans (n + 1)
        = [95, 90, 120] ++ 32 :: rejected_spans n := rfl
    have hz : strcspn ([95, 90, 120] ++ 32 :: rejected_spans n) triggers = 0 :=
      strcspn_of_stop triggers 95 _ (Or.inr (by decide))
    have hstep : scan_step reject_all f true
        ([95, 90, 120] ++ 32 :: rejected_spans n) R
        = .cont (32 :: rejected_spans n) (R ++ (R ++ [95, 90, 120])) 3 := by
      rw [scan_step_dispatch reject_all f true _ R 3 hz (by simp)
        (n_sym_at_Zx (rejected_spans n))]
      have htake : ([95, 90, 120] ++ 32 :: rejected_spans n).take 3
          = [95, 90, 120] := rfl
      rw [htake, demangled_rejected reject_all R f [95, 90, 120] 3
        ⟨rfl, rfl, rfl, Or.inl rfl⟩]
      simp
    have hlit := scan_loop_literal_prefix reject_all f true k [32]
      (rejected_spans n) (R ++ (R ++ [95, 90, 120])) (by decide) (by decide)
    simp only [if_true, List.singleton_append] at hlit
    obtain ⟨out, hout, hlen⟩ := ih k (R ++ (R ++ [95, 90, 120])) (by omega)
    refine ⟨out, ?_, ?_⟩
    · rw [hcur, scan_loop]
      simp only [List.cons_append, List.nil_append, reduceCtorEq, if_false]
      simp only [List.cons_append, List.nil_append] at hstep
      simp only [hstep]
      rw [hlit]
      exact hout
    · rw [hlen]
      simp only [List.length_append, List.length_cons, List.length_nil]
      rw [Nat.pow_succ]
      ring

/-- C8, evaluated at the input of 256 bytes made of 64 copies of `_Zx` and a
blank, without NUL byte, every decoder rejecting every span, matching-only
mode: each dispatch appends the output so far once more (line 175), so the
output the loop has to build has `3 * 2^64 - 3` bytes, more than `2^64`: no
`std::string` holds it, and `result +=` throws before the cursor reaches
`end`. -/
theorem doubling_outgrows_every_string :
    (rejected_spans 64).length = 256 ∧
    (∀ c ∈ rejected_spans 64, c ≠ 0) ∧
    (∀ s d k, reject_all.microsoftDemangle s = some (d, k) → 1 ≤ k ∧ k ≤ s.length) ∧
    ∃ out, demangled_conv reject_all (rejected_spans 64) false true false = some out ∧
      out.length + 3 = 3 * 2 ^ 64 ∧ 2 ^ 64 < out.length := by
  refine ⟨rejected_spans_length 64, rejected_spans_nonul 64, ?_, ?_⟩
  · intro s d k h
    simp [reject_all] at h
  · obtain ⟨out, hout, hlen⟩ := scan_loop_rejected_spans .plain 64
      ((rejected_spans 64).length + 1) [] (by rw [rejected_spans_length]; omega)
    refine ⟨out, ?_, ?_, ?_⟩
    · simpa [demangled_conv] using hout
    · rw [hlen]
      simp only [List.length_nil, Nat.zero_add]
      ring
    · simp only [List.length_nil, Nat.zero_add] at hlen
      have h64 : (2 : Nat) ^ 64 = 18446744073709551616 := by norm_num
      rw [h64] at hlen ⊢
      omega

/-! ## C9 -/

/-- C9 as stated fails: `?a?b` is one `?`-started span of Microsoft-class
bytes, Itanium and Rust reject it, the Microsoft decoder accepts it as `d`
after 2 of its 4 bytes; the rest `?b` is not literal text but the next
candidate span, and the output is `dde`, not `d?b`. -/
theorem partial_consumption_rescan_counterexample :
    [63, 97, 63, 98].head? = some 63 ∧
    (∀ c ∈ [63, 97, 63, 98], is_mangle_char_win c = true) ∧
    ms_short.itaniumDemangle [63, 97, 63, 98] = none ∧
    ms_short.rustDemangle [63, 97, 63, 98] = none ∧
    ms_short.microsoftDemangle [63, 97, 63, 98] = some (c_str [100], 2) ∧
    (1 ≤ 2 ∧ 2 < [63, 97, 63, 98].length) ∧
    demangled_conv ms_short [63, 97, 63, 98] false false false
      = some [100, 100, 101] ∧
    demangled_conv ms_short [63, 97, 63, 98] false false false
      ≠ some ((c_str [100]).bytes ++ [63, 97, 63, 98].drop 2) :=
  ⟨rfl, by decide, rfl, rfl, rfl, by decide, by decide, by decide⟩

/-- C9, amended: for an input that is exactly one `?`-started span `S` of
Microsoft-class bytes which Itanium and Rust reject and the Microsoft decoder
accepts with name `d` and consumed count `k`, `1 ≤ k < |S|`, and whose rest
`S[k..]` holds no trigger character and no NUL byte, the scanner advances by
exactly `k`, then by `|S| - k` over the rest as literal text, and the
print-all, plain-template output is `d ++ S[k..]`. -/
theorem microsoft_partial_consumption (D : Decoders) (S : List Byte) (d : CStr)
    (k : Nat) (u : Bool)
    (hhead : S.head? = some 63)
    (hclass : ∀ c ∈ S, is_mangle_char_win c = true)
    (hit : D.itaniumDemangle S = none) (hrust : D.rustDemangle S = none)
    (hms : D.microsoftDemangle S = some (d, k))
    (_hk1 : 1 ≤ k) (hk2 : k < S.length)
    (hrest_nul : ∀ c ∈ S.drop k, c ≠ 0)
    (hrest : ∀ c ∈ S.drop k, c ∉ triggers) :
    demangled_conv D S false false u = some (d.bytes ++ S.drop k) ∧
    conv_advances D S false false = some [k, S.length - k] := by
  obtain ⟨t, rfl⟩ : ∃ t, S = 63 :: t := by
    cases S with
    | nil => simp at hhead
    | cons c t =>
      simp only [List.head?_cons, Option.some.injEq] at hhead
      exact ⟨t, by rw [hhead]⟩
  have hz : strcspn (63 :: t) triggers = 0 :=
    strcspn_of_stop triggers 63 t (Or.inr (by decide))
  have hn : n_sym_at (63 :: t) = some (63 :: t).length := by
    have hsch : scheme_at (63 :: t) = some .microsoft := by simp [scheme_at]
    simp only [n_sym_at, hsch, Option.map_some', mangle_char]
    rw [mangle_run_all _ _ hclass]
  have hdem : demangled D [] .plain (63 :: t) (63 :: t).length = (d.bytes, k) := by
    simp [demangled, hit, hrust, hms, append_formatted_plain]
  have hle : k ≤ (63 :: t).length := Nat.le_of_lt hk2
  have hstep1 : scan_step D .plain false (63 :: t) []
      = .cont ((63 :: t).drop k) d.bytes k := by
    rw [scan_step_dispatch D .plain false (63 :: t) [] _ hz (by simp) hn]
    rw [List.take_length, hdem]
    simp only [if_pos hle, List.nil_append]
  have hne2 : (63 :: t).drop k ≠ [] := by
    intro h
    have := List.drop_eq_nil_iff.mp h
    omega
  have hstep2 := scan_step_literal D .plain false ((63 :: t).drop k) d.bytes
    hrest_nul hrest
  simp only [Bool.false_eq_true, if_false] at hstep2
  constructor
  · simp only [demangled_conv, Bool.false_eq_true, if_false, List.length_cons]
    rw [scan_loop]
    simp only [reduceCtorEq, if_false, hstep1]
    rw [scan_loop]
    simp only [hne2, if_false, hstep2]
  · simp only [conv_advances, Bool.false_eq_true, if_false, List.length_cons]
    rw [scan_advances]
    simp only [reduceCtorEq, if_false, hstep1]
    rw [scan_advances]
    simp only [hne2, if_false, hstep2, Option.map_some', List.length_drop,
      List.length_cons]

/-- C9, amended, at `?f@@3`: the name `f` ends after four bytes and the digit
`3` is copied as literal text. -/
theorem microsoft_partial_consumption_witness :
    demangled_conv ms_digits [63, 102, 64, 64, 51] false false false
      = some ([102] ++ [51]) ∧
    conv_advances ms_digits [63, 102, 64, 64, 51] false false = some [4, 5 - 4] :=
  microsoft_partial_consumption ms_digits [63, 102, 64, 64, 51] (c_str [102]) 4
    false rfl (by decide) rfl rfl rfl (by decide) (by decide) (by decide)
    (by decide)

/-! ## C10 -/

/-- C10: `demangled` takes the result of the first accepting decoder in the
order Itanium, Rust, Microsoft, Swift; its value is then fixed by that decoder
alone. When Itanium or Rust accepts, `*n_used` keeps the value it had on
entry (the span length), whatever the Microsoft decoder would report. -/
theorem demangled_first_acceptor_wins (D : Decoders) (origin : List Byte)
    (f : PrintFormat) (s : List Byte) (n : Nat) :
    (∀ d, D.itaniumDemangle s = some d →
      demangled D origin f s n = (append_formatted origin f d s.length s, n)) ∧
    (∀ d, D.itaniumDemangle s = none → D.rustDemangle s = some d →
      demangled D origin f s n = (append_formatted origin f d s.length s, n)) ∧
    (∀ d k, D.itaniumDemangle s = none → D.rustDemangle s = none →
      D.microsoftDemangle s = some (d, k) →
      demangled D origin f s n = (append_formatted origin f d s.length s, k)) ∧
    (D.itaniumDemangle s = none → D.rustDemangle s = none →
      D.microsoftDemangle s = none → D.isSwiftSymbol s = true →
      demangled D origin f s n =
        if D.demangleSymbolAsString s = s then (origin ++ s, n)
        else (append_formatted origin f (c_str (D.demangleSymbolAsString s))
          s.length s, n)) ∧
    (D.itaniumDemangle s = none → D.rustDemangle s = none →
      D.microsoftDemangle s = none → D.isSwiftSymbol s = false →
      demangled D origin f s n = (origin ++ s, n)) := by
  refine ⟨?_, ?_, ?_, ?_, ?_⟩
  · intro d h1
    simp [demangled, h1]
  · intro d h1 h2
    simp [demangled, h1, h2]
  · intro d k h1 h2 h3
    simp [demangled, h1, h2, h3]
  · intro h1 h2 h3 h4
    simp [demangled, h1, h2, h3, h4]
  · intro h1 h2 h3 h4
    simp [demangled, h1, h2, h3, h4]

/-- C10 at `_Z4funcPci` with a Microsoft decoder that would accept the span
after one byte: the Itanium name is used and the count stays 10. -/
theorem demangled_first_acceptor_wins_witness :
    itanium_and_ms.microsoftDemangle [95, 90, 52, 102, 117, 110, 99, 80, 99, 105]
      = some (c_str [109], 1) ∧
    demangled itanium_and_ms [] .plain [95, 90, 52, 102, 117, 110, 99, 80, 99, 105] 10
      = (append_formatted [] .plain
          (c_str [102, 117, 110, 99, 40, 99, 104, 97, 114, 42, 44, 32, 105, 110, 116, 41])
          [95, 90, 52, 102, 117, 110, 99, 80, 99, 105].length
          [95, 90, 52, 102, 117, 110, 99, 80, 99, 105], 10) :=
  ⟨rfl, (demangled_first_acceptor_wins itanium_and_ms [] .plain
    [95, 90, 52, 102, 117, 110, 99, 80, 99, 105] 10).1 _ rfl⟩

/-! ## C11 -/

/-- C11: at a cursor whose byte is `?` the scanner takes the Microsoft branch
and bounds the span with `is_mangle_char_win`, whatever follows, also when the
Itanium window heuristic holds as in `?_Z3foov`; the iteration dispatches that
span, so no other branch and not the no-match fallback is reached. -/
theorem question_mark_is_microsoft (D : Decoders) (f : PrintFormat) (m : Bool)
    (rest result : List Byte) :
    scheme_at (63 :: rest) = some .microsoft ∧
    n_sym_at (63 :: rest) = some (mangle_run is_mangle_char_win (63 :: rest)) ∧
    scan_step D f m (63 :: rest) result =
      (if (demangled D result f
            ((63 :: rest).take (mangle_run is_mangle_char_win (63 :: rest)))
            (mangle_run is_mangle_char_win (63 :: rest))).2 ≤ (63 :: rest).length then
        .cont ((63 :: rest).drop (demangled D result f
            ((63 :: rest).take (mangle_run is_mangle_char_win (63 :: rest)))
            (mangle_run is_mangle_char_win (63 :: rest))).2)
          (result ++ (demangled D result f
            ((63 :: rest).take (mangle_run is_mangle_char_win (63 :: rest)))
            (mangle_run is_mangle_char_win (63 :: rest))).1)
          (demangled D result f
            ((63 :: rest).take (mangle_run is_mangle_char_win (63 :: rest)))
            (mangle_run is_mangle_char_win (63 :: rest))).2
      else .fault) ∧
    is_plausible_itanium_prefix [63, 95, 90, 51, 102, 111, 111, 118] = true ∧
    n_sym_at [63, 95, 90, 51, 102, 111, 111, 118] = some 8 := by
  have hsch : scheme_at (63 :: rest) = some .microsoft := by simp [scheme_at]
  have hn : n_sym_at (63 :: rest)
      = some (mangle_run is_mangle_char_win (63 :: rest)) := by
    simp only [n_sym_at, hsch, Option.map_some', mangle_char]
  have hz : strcspn (63 :: rest) triggers = 0 :=
    strcspn_of_stop triggers 63 rest (Or.inr (by decide))
  exact ⟨hsch, hn, scan_step_dispatch D f m (63 :: rest) result _ hz (by simp) hn,
    by decide, by decide⟩

/-! ## C12 -/

/-- C12 as stated fails: at `_R_Z` both the Itanium and the Rust heuristic
hold, and at `?_Z` the byte is `?` and the Itanium heuristic holds. -/
theorem heuristics_overlap_counterexample :
    ( is_plausible_itanium_prefix [95, 82, 95, 90] = true ∧
      is_plausible_rust_prefix [95, 82, 95, 90] = true) ∧
    ([63, 95, 90].getD 0 0 = 63 ∧
      is_plausible_itanium_prefix [63, 95, 90] = true) ∧
    ( is_plausible_itanium_prefix [95, 84, 95, 90] = true ∧
      is_plausible_swift_prefix [95, 84, 95, 90] = true) := by
  decide

/-- C12, amended: the byte `?`, the Rust heuristic and the Swift heuristic
exclude one another, and the scanner takes the first heuristic that holds in
the order `?`, Itanium, Rust, Swift, so every cursor has at most one
classification; the Itanium heuristic itself may hold together with each of
the other three. -/
theorem classification_first_match (cur : List Byte) :
    ¬ (cur.getD 0 0 = 63 ∧ is_plausible_rust_prefix cur = true) ∧
    ¬ (cur.getD 0 0 = 63 ∧ is_plausible_swift_prefix cur = true) ∧
    ¬ ( is_plausible_rust_prefix cur = true ∧ is_plausible_swift_prefix cur = true) ∧
    (scheme_at cur = some .microsoft ↔ cur.getD 0 0 = 63) ∧
    (scheme_at cur = some .itanium ↔
      cur.getD 0 0 ≠ 63 ∧ is_plausible_itanium_prefix cur = true) ∧
    (scheme_at cur = some .rust ↔
      cur.getD 0 0 ≠ 63 ∧ is_plausible_itanium_prefix cur = false ∧
        is_plausible_rust_prefix cur = true) ∧
    (scheme_at cur = some .swift ↔
      cur.getD 0 0 ≠ 63 ∧ is_plausible_itanium_prefix cur = false ∧
        is_plausible_rust_prefix cur = false ∧ is_plausible_swift_prefix cur = true) := by
  refine ⟨?_, ?_, ?_, ?_⟩
  · simp only [ is_plausible_rust_prefix]
    generalize cur.getD 0 0 = a
    generalize cur.getD 1 0 = b
    rintro ⟨h1, h2⟩
    subst h1
    simp at h2
  · simp only [ is_plausible_swift_prefix]
    generalize cur.getD 0 0 = a
    generalize cur.getD 1 0 = b
    rintro ⟨h1, h2⟩
    subst h1
    simp at h2
  · simp only [ is_plausible_rust_prefix, is_plausible_swift_prefix]
    generalize cur.getD 0 0 = a
    generalize cur.getD 1 0 = b
    rintro ⟨h1, h2⟩
    simp only [Bool.and_eq_true, beq_iff_eq] at h1
    obtain ⟨ha, hb⟩ := h1
    subst ha
    subst hb
    simp at h2
  · unfold scheme_at
    generalize cur.getD 0 0 = a
    generalize is_plausible_itanium_prefix cur = x
    generalize is_plausible_rust_prefix cur = y
    generalize is_plausible_swift_prefix cur = z
    by_cases h : a = 63
    · subst h
      simp
    · cases x <;> cases y <;> cases z <;> simp [h]

/-! ## C13 -/

/-- C13: when Itanium, Rust and Microsoft reject the span, the Swift
recogniser accepts it and the Swift text equals the span, `demangled` returns
the prior output followed by the bytes of the span, with either template: the
annotated template adds no quotes and no parenthesised original. -/
theorem swift_noop_echoed (D : Decoders) (origin : List Byte) (f : PrintFormat)
    (s : List Byte) (n : Nat)
    (hit : D.itaniumDemangle s = none) (hrust : D.rustDemangle s = none)
    (hms : D.microsoftDemangle s = none) (hsw : D.isSwiftSymbol s = true)
    (hsame : D.demangleSymbolAsString s = s) :
    demangled D origin f s n = (origin ++ s, n) := by
  simp [demangled, hit, hrust, hms, hsw, hsame]

/-- C13 at the span `$sfoo` after the output `x=`, annotated template. -/
theorem swift_noop_echoed_witness :
    demangled swift_noop [120, 61] .annotated [36, 115, 102, 111, 111] 5
      = ([120, 61] ++ [36, 115, 102, 111, 111], 5) :=
  swift_noop_echoed swift_noop [120, 61] .annotated [36, 115, 102, 111, 111] 5
    rfl rfl rfl rfl rfl

/-! ## C14 -/

/-- C14 as stated fails: the heuristic holds at `_a_Z`, which does not begin
with one to four underscores followed by `Z`. -/
theorem itanium_window_counterexample :
    is_plausible_itanium_prefix [95, 97, 95, 90] = true ∧
    ¬ ∃ k rest, 1 ≤ k ∧ k ≤ 4 ∧
      [95, 97, 95, 90] = List.replicate k 95 ++ 90 :: rest := by
  refine ⟨by decide, ?_⟩
  rintro ⟨k, rest, h1, h4, h⟩
  interval_cases k <;> simp [List.replicate] at h

/-- The window heuristic, byte by byte: `_Z` starts at one of the first four
places of the C string `s`. -/
theorem itanium_window_iff (s : List Byte) :
    is_plausible_itanium_prefix s = true ↔
      (s.getD 0 0 = 95 ∧ s.getD 1 0 = 90) ∨
      (s.getD 0 0 ≠ 0 ∧ s.getD 1 0 = 95 ∧ s.getD 2 0 = 90) ∨
      (s.getD 0 0 ≠ 0 ∧ s.getD 1 0 ≠ 0 ∧ s.getD 2 0 = 95 ∧ s.getD 3 0 = 90) ∨
      (s.getD 0 0 ≠ 0 ∧ s.getD 1 0 ≠ 0 ∧ s.getD 2 0 ≠ 0 ∧ s.getD 3 0 = 95 ∧
        s.getD 4 0 = 90) := by
  unfold is_plausible_itanium_prefix c_str
  rcases s with _ | ⟨a, _ | ⟨b, _ | ⟨c, _ | ⟨d, _ | ⟨e, t⟩⟩⟩⟩⟩
  · simp [strstr]
  · by_cases ha : a = 0 <;>
      simp [ha, strstr, List.isPrefixOf, List.takeWhile_cons]
  · by_cases ha : a = 0 <;> by_cases hb : b = 0 <;>
      simp [ha, hb, strstr, List.isPrefixOf, List.takeWhile_cons,
        @eq_comm Nat 95, @eq_comm Nat 90]
  · by_cases ha : a = 0 <;> by_cases hb : b = 0 <;> by_cases hc : c = 0 <;>
      simp [ha, hb, hc, strstr, List.isPrefixOf, List.takeWhile_cons,
        @eq_comm Nat 95, @eq_comm Nat 90]
  · by_cases ha : a = 0 <;> by_cases hb : b = 0 <;> by_cases hc : c = 0 <;>
      by_cases hd : d = 0 <;>
      simp [ha, hb, hc, hd, strstr, List.isPrefixOf, List.takeWhile_cons,
        @eq_comm Nat 95, @eq_comm Nat 90]
  · by_cases ha : a = 0 <;> by_cases hb : b = 0 <;> by_cases hc : c = 0 <;>
      by_cases hd : d = 0 <;> by_cases he : e = 0 <;>
      simp [ha, hb, hc, hd, he, strstr, List.isPrefixOf, List.takeWhile_cons,
        @eq_comm Nat 95, @eq_comm Nat 90]

/-- C14, amended: `is_plausible_itanium_prefix(s)` is true if and only if the
C string `s` holds `_Z` somewhere in its first five bytes (`_` at one of the
first four places, `Z` right after it, no NUL before); every `s` that begins
with one to four underscores followed by `Z` is such a string. -/
theorem itanium_window_heuristic (s : List Byte) :
    ( is_plausible_itanium_prefix s = true ↔
      (s.getD 0 0 = 95 ∧ s.getD 1 0 = 90) ∨
      (s.getD 0 0 ≠ 0 ∧ s.getD 1 0 = 95 ∧ s.getD 2 0 = 90) ∨
      (s.getD 0 0 ≠ 0 ∧ s.getD 1 0 ≠ 0 ∧ s.getD 2 0 = 95 ∧ s.getD 3 0 = 90) ∨
      (s.getD 0 0 ≠ 0 ∧ s.getD 1 0 ≠ 0 ∧ s.getD 2 0 ≠ 0 ∧ s.getD 3 0 = 95 ∧
        s.getD 4 0 = 90)) ∧
    (∀ k rest, 1 ≤ k → k ≤ 4 →
      is_plausible_itanium_prefix (List.replicate k 95 ++ 90 :: rest) = true) := by
  refine ⟨itanium_window_iff s, ?_⟩
  intro k rest h1 h4
  interval_cases k <;>
    simp [List.replicate, is_plausible_itanium_prefix, c_str, strstr,
      List.isPrefixOf, List.takeWhile_cons]

/-- C14, amended, at `___Z1x`: three underscores followed by `Z`. -/
theorem itanium_window_heuristic_witness :
    is_plausible_itanium_prefix (List.replicate 3 95 ++ 90 :: [49, 120]) = true :=
  (itanium_window_heuristic []).2 3 [49, 120] (by decide) (by decide)

/-! ## C15 -/

/-- C15, evaluated at the NUL byte: `strchr("?_@$", 0)` finds the terminator
of the literal, so `is_mangle_char_win(0)` is true, while the three sibling
classes reject NUL; a `?`-started span therefore runs over a NUL byte of the
buffer (`?a\0b` is one span of four bytes). -/
theorem win_class_accepts_nul :
    is_mangle_char_win 0 = true ∧
    is_mangle_char_itanium 0 = false ∧ is_mangle_char_rust 0 = false ∧
    is_mangle_char_swift 0 = false ∧
    n_sym_at [63, 97, 0, 98] = some 4 ∧
    (∀ c : Nat, is_mangle_char_win c = true ↔
      ((97 ≤ c ∧ c ≤ 122) ∨ (65 ≤ c ∧ c ≤ 90) ∨ (48 ≤ c ∧ c ≤ 57) ∨
        c = 63 ∨ c = 95 ∨ c = 64 ∨ c = 36 ∨ c = 0)) := by
  refine ⟨by decide, by decide, by decide, by decide, by decide, ?_⟩
  intro c
  simp only [is_mangle_char_win, strchr, List.contains_cons, List.contains_nil,
    Bool.or_false, Bool.or_eq_true, Bool.and_eq_true, decide_eq_true_eq,
    beq_iff_eq]
  tauto

/-! ## C16 -/

/-- The loop of `mangle_run` stops at the end of the buffer or at the first
byte outside the class, and every byte before is of the class. -/
theorem mangle_run_maximal (p : Byte → Bool) :
    ∀ (cur : List Byte),
      (∀ i, i < mangle_run p cur → p (cur.getD i 0) = true) ∧
      (mangle_run p cur = cur.length ∨
        (mangle_run p cur < cur.length ∧ p (cur.getD (mangle_run p cur) 0) = false)) := by
  intro cur
  induction cur with
  | nil => simp [mangle_run]
  | cons a t ih =>
    by_cases ha : p a = true
    · have hrun : mangle_run p (a :: t) = mangle_run p t + 1 := by
        simp [mangle_run, List.takeWhile_cons, ha]
      rw [hrun]
      refine ⟨?_, ?_⟩
      · intro i hi
        cases i with
        | zero => simpa using ha
        | succ j =>
          have := ih.1 j (by omega)
          simpa using this
      · rcases ih.2 with h | ⟨h1, h2⟩
        · left; simp [h]
        · right
          refine ⟨by simp only [List.length_cons]; omega, ?_⟩
          simpa using h2
    · have hrun : mangle_run p (a :: t) = 0 := by
        simp [mangle_run, List.takeWhile_cons, ha]
      rw [hrun]
      refine ⟨fun i hi => absurd hi (Nat.not_lt_zero i), Or.inr ⟨by simp, ?_⟩⟩
      simpa using ha

/-- C16: at a cursor classified into the scheme `sch`, the span length `n`
computed by the scanner is the maximal run of the class of `sch`: the span
ends inside the buffer, each of its bytes is of the class, and it stops at
the end of the input or at a byte outside the class. A Rust-classified span
ends before the first `$`; `$` is of the Itanium and of the Swift class. -/
theorem span_is_maximal_run (cur : List Byte) (sch : Scheme)
    (hs : scheme_at cur = some sch) :
    n_sym_at cur = some (mangle_run (mangle_char sch) cur) ∧
    mangle_run (mangle_char sch) cur ≤ cur.length ∧
    (∀ i, i < mangle_run (mangle_char sch) cur →
      mangle_char sch (cur.getD i 0) = true) ∧
    (mangle_run (mangle_char sch) cur = cur.length ∨
      (mangle_run (mangle_char sch) cur < cur.length ∧
        mangle_char sch (cur.getD (mangle_run (mangle_char sch) cur) 0) = false)) ∧
    (sch = .rust → ∀ i, i < cur.length → cur.getD i 0 = 36 →
      mangle_run (mangle_char sch) cur ≤ i) ∧
    mangle_char .itanium 36 = true ∧ mangle_char .swift 36 = true := by
  have hmax := mangle_run_maximal (mangle_char sch) cur
  refine ⟨by simp [n_sym_at, hs], mangle_run_le _ _, hmax.1, hmax.2, ?_,
    by decide, by decide⟩
  intro hr i _ h36
  subst hr
  by_contra hlt
  have := hmax.1 i (by omega)
  rw [h36] at this
  revert this
  decide

/-- C16 at `_RNv$x`, classified Rust: the span is `_RNv`, four bytes. -/
theorem span_is_maximal_run_witness :
    scheme_at [95, 82, 78, 118, 36, 120] = some .rust ∧
    n_sym_at [95, 82, 78, 118, 36, 120]
      = some (mangle_run (mangle_char .rust) [95, 82, 78, 118, 36, 120]) ∧
    mangle_run (mangle_char .rust) [95, 82, 78, 118, 36, 120] = 4 :=
  ⟨by decide,
    (span_is_maximal_run [95, 82, 78, 118, 36, 120] .rust (by decide)).1,
    by decide⟩

/-! ## C17 -/

theorem getD_drop (l : List Byte) (i j : Nat) :
    (l.drop i).getD j 0 = l.getD (i + j) 0 := by
  simp [List.getD_eq_getElem?_getD, List.getElem?_drop]

theorem getD_ne_of_forall (l : List Byte) (x : Byte) (j : Nat) (hx : x ≠ 0)
    (h : ∀ c ∈ l, c ≠ x) : l.getD j 0 ≠ x := by
  by_cases hj : j < l.length
  · rw [List.getD_eq_getElem _ _ hj]
    exact h _ (List.getElem_mem _)
  · rw [List.getD_eq_default _ _ (by omega)]
    exact fun h0 => hx h0.symm

/-- A `$` that is not followed by `s` or `S`, in a buffer without `_`, is
classified into no scheme. -/
theorem scheme_at_dollar (cur : List Byte) (h0 : cur.getD 0 0 = 36)
    (h95 : ∀ c ∈ cur, c ≠ 95)
    (h1 : cur.getD 1 0 ≠ 115 ∧ cur.getD 1 0 ≠ 83) : scheme_at cur = none := by
  have hit : is_plausible_itanium_prefix cur = false := by
    have hn : ∀ j, cur.getD j 0 ≠ 95 :=
      fun j => getD_ne_of_forall cur 95 j (by decide) h95
    rw [Bool.eq_false_iff]
    intro h
    rcases (itanium_window_iff cur).mp h with h | h | h | h
    · exact hn 0 h.1
    · exact hn 1 h.2.1
    · exact hn 2 h.2.2.1
    · exact hn 3 h.2.2.2.1
  unfold scheme_at
  rw [hit]
  simp only [ is_plausible_rust_prefix, is_plausible_swift_prefix, h0]
  generalize cur.getD 1 0 = b at h1
  obtain ⟨ha, hb⟩ := h1
  simp [ha, hb]

/-- C17, evaluated at the input `a$b\0`: its only trigger byte is `$`,
followed by `b`, and print-all mode returns `a_b_`, not the input with only
`$` replaced: the NUL byte is answered by `_` as well. -/
theorem nul_after_dollar_written_as_underscore :
    (∀ c ∈ [97, 36, 98, 0], c ≠ 95 ∧ c ≠ 63) ∧
    (∀ i, i < [97, 36, 98, 0].length → [97, 36, 98, 0].getD i 0 = 36 →
      [97, 36, 98, 0].getD (i + 1) 0 ≠ 115 ∧ [97, 36, 98, 0].getD (i + 1) 0 ≠ 83) ∧
    demangled_conv reject_all [97, 36, 98, 0] false false false
      = some [97, 95, 98, 95] ∧
    demangled_conv reject_all [97, 36, 98, 0] false false false
      ≠ some ([97, 36, 98, 0].map (fun c => if c = 36 then 95 else c)) := by
  decide

/-- On inputs without NUL byte the no-match branch behaves as described: for
an input without NUL byte whose only trigger bytes are `$`, none of them
followed by `s` or `S`, print-all mode returns the input with every `$`
replaced by `_`, print-matching mode returns the empty string, and the
iteration that starts at such a `$` moves the cursor by exactly one byte. -/
theorem dollar_fallback_underscore (D : Decoders) (input : List Byte)
    (b u : Bool)
    (hnul : ∀ c ∈ input, c ≠ 0)
    (honly : ∀ c ∈ input, c ≠ 95 ∧ c ≠ 63)
    (hnext : ∀ i, i < input.length → input.getD i 0 = 36 →
      input.getD (i + 1) 0 ≠ 115 ∧ input.getD (i + 1) 0 ≠ 83) :
    demangled_conv D input b false u
      = some (input.map (fun c => if c = 36 then 95 else c)) ∧
    demangled_conv D input b true u = some [] ∧
    (∀ i, i < input.length → input.getD i 0 = 36 →
      ∀ (f : PrintFormat) (m : Bool) (result : List Byte),
        scan_step D f m (input.drop i) result
          = .cont (input.drop (i + 1)) (if m then result else result ++ [95]) 1) := by
  have hsch : ∀ i, i < input.length → input.getD i 0 = 36 →
      scheme_at (input.drop i) = none := by
    intro i hi h36
    apply scheme_at_dollar
    · rw [getD_drop_zero, h36]
    · intro c hc
      exact (honly c (List.mem_of_mem_drop hc)).1
    · rw [getD_drop]
      exact hnext i hi h36
  have hu : unclassified input input.length := by
    intro i hi hmem
    have hin : input.getD i 0 ∈ input := by
      rw [List.getD_eq_getElem _ _ hi]
      exact List.getElem_mem _
    have h := honly _ hin
    simp only [triggers, List.mem_cons, List.mem_singleton, List.not_mem_nil,
      or_false] at hmem
    rcases hmem with h95 | h63 | h36
    · exact absurd h95 h.1
    · exact absurd h63 h.2
    · exact hsch i hi h36
  have hmap : input.map fallback_byte
      = input.map (fun c => if c = 36 then 95 else c) := by
    apply List.map_congr_left
    intro c hc
    have h0 := hnul c hc
    have h1 := honly c hc
    unfold fallback_byte
    by_cases h36 : c = 36
    · simp [h36, triggers]
    · simp [h0, h1.1, h1.2, h36, triggers]
  refine ⟨?_, ?_, ?_⟩
  · unfold demangled_conv
    simp only
    rw [scan_loop_unclassified D _ false input [] hu]
    simp [hmap]
  · unfold demangled_conv
    simp only
    rw [scan_loop_unclassified D _ true input [] hu]
    simp
  · intro i hi h36 f m result
    have hd : input.drop i = 36 :: input.drop (i + 1) := by
      rw [List.drop_eq_getElem_cons hi]
      rw [List.getD_eq_getElem _ _ hi] at h36
      rw [h36]
    have hz : strcspn (input.drop i) triggers = 0 := by
      rw [hd]
      exact strcspn_of_stop triggers 36 _ (Or.inr (by decide))
    rw [scan_step_fallback D f m (input.drop i) result hz (by simp [hd]) (hsch i hi h36)]
    simp [hd]

/-- The input `a$b` gives `a_b`, and nothing in print-matching mode. -/
theorem dollar_fallback_underscore_witness :
    demangled_conv itanium_func [97, 36, 98] true false false = some [97, 95, 98] ∧
    demangled_conv itanium_func [97, 36, 98] true true false = some [] ∧
    scan_step itanium_func .plain false ([97, 36, 98].drop 1) [97]
      = .cont ([97, 36, 98].drop (1 + 1)) [97, 95] 1 :=
  ⟨(dollar_fallback_underscore itanium_func [97, 36, 98] true false
      (by decide) (by decide) (by decide)).1,
    (dollar_fallback_underscore itanium_func [97, 36, 98] true false
      (by decide) (by decide) (by decide)).2.1,
    (dollar_fallback_underscore itanium_func [97, 36, 98] true false
      (by decide) (by decide) (by decide)).2.2 1 (by decide) (by decide)
      .plain false [97]⟩

/-! ## C18 -/

end Demumble
